import Mathlib

/-!
Verification of the cozeloop-go trace exporter subsystem.

The Go code under `internal/trace` is shallowly embedded:
pure control flow becomes Lean functions, the OS / filesystem layer
becomes an explicit oracle plus a `String → String` content map,
fallible operations return `Option ε` (`some` = the Go error,
`none` = Go `nil`).  Components whose source is not in the repository
snapshot (header codec, bounded queue, span processor) are modelled
from the specification text, as marked in their doc comments.
-/

/-- A child exporter: the two methods of the Go `Exporter` interface,
each mapping a batch to an optional error (`none` = success).
Spans have type `σ`, files type `φ`, errors type `ε`. -/
structure Exporter (σ φ ε : Type) where
  exportSpansFn : List σ → Option ε
  exportFilesFn : List φ → Option ε

/-- The `MultiExporter` struct: its `exporters` slice.  A Go slice of
interface values may hold `nil` entries, hence `Option`. -/
structure MultiExporter (σ φ ε : Type) where
  exporters : List (Option (Exporter σ φ ε))

/-- Embedding of `NewMultiExporter`: the loop that appends every
non-nil argument to `validExporters`. -/
def NewMultiExporter (args : List (Option (Exporter σ φ ε))) : MultiExporter σ φ ε :=
  ⟨args.foldl (fun acc e => if e.isSome then acc ++ [e] else acc) []⟩

/-- Embedding of the `for _, exporter := range m.exporters` loop shared
by `ExportSpans` and `ExportFiles`: `call` is the method invoked,
`batch` its argument, the accumulator is `firstErr`.  The result is
`none` when the loop would dereference a nil exporter (a Go panic);
otherwise `some (calls, firstErr)` where `calls` records, in order,
each (exporter, argument) invocation performed. -/
def exportLoop (call : α → β → Option ε) (batch : β) :
    List (Option α) → Option ε → Option (List (α × β) × Option ε)
  | [], firstErr => some ([], firstErr)
  | none :: _, _ => none
  | some e :: rest, firstErr =>
    let newFirst :=
      match firstErr, call e batch with
      | none, some err => some err
      | _, _ => firstErr
    match exportLoop call batch rest newFirst with
    | none => none
    | some (calls, res) => some ((e, batch) :: calls, res)

/-- Embedding of `MultiExporter.ExportSpans`. -/
def MultiExporter.exportSpans (m : MultiExporter σ φ ε) (batch : List σ) :
    Option (List (Exporter σ φ ε × List σ) × Option ε) :=
  if m.exporters.length = 0 then some ([], none)
  else exportLoop (fun e b => e.exportSpansFn b) batch m.exporters none

/-- Embedding of `MultiExporter.ExportFiles`. -/
def MultiExporter.exportFiles (m : MultiExporter σ φ ε) (batch : List φ) :
    Option (List (Exporter σ φ ε × List φ) × Option ε) :=
  if m.exporters.length = 0 then some ([], none)
  else exportLoop (fun e b => e.exportFilesFn b) batch m.exporters none

/-- Embedding of `MultiExporter.AddExporter`: appends only non-nil
exporters. -/
def MultiExporter.AddExporter (m : MultiExporter σ φ ε) (e : Option (Exporter σ φ ε)) :
    MultiExporter σ φ ε :=
  if e.isSome then ⟨m.exporters ++ [e]⟩ else m

/-- Embedding of `MultiExporter.ExporterCount`. -/
def MultiExporter.ExporterCount (m : MultiExporter σ φ ε) : Nat :=
  m.exporters.length

/-- The first error produced by a list of children, reading the spec:
"returns the first error encountered". -/
def firstError (call : α → Option ε) : List α → Option ε
  | [] => none
  | e :: rest =>
    match call e with
    | some err => some err
    | none => firstError call rest

/-- Accumulator combination: an already-recorded first error wins. -/
def accOr : Option ε → Option ε → Option ε
  | some e, _ => some e
  | none, r => r

/-- A concrete always-succeeding exporter, used to evaluate theorems at
concrete inputs. -/
def exNone : Exporter Nat Nat Nat :=
  ⟨fun _ => none, fun _ => none⟩

/-- A concrete always-failing exporter with error code 7. -/
def exFail : Exporter Nat Nat Nat :=
  ⟨fun _ => some 7, fun _ => some 7⟩

/-- The `FileExporter` struct: its `filePath` (the mutex only guards
concurrent calls and has no sequential meaning). -/
structure FileExporter where
  filePath : String

/-- Default path constant of file_exporter.go. -/
def DefaultLocalExportPath : String := "./cozeloop_traces.md"

/-- Embedding of `NewFileExporter`. -/
def NewFileExporter (filePath : String) : FileExporter :=
  if filePath = "" then ⟨DefaultLocalExportPath⟩ else ⟨filePath⟩

/-- Oracle for the OS layer used by ExportSpans: `dirOf` stands for
`filepath.Dir`, `mkdirAll` / `openAppend` give the error of
`os.MkdirAll` / `os.OpenFile` (`none` = success), and `writeErrs n`
gives the error of the n-th `WriteString` on the opened handle. -/
structure OSModel (ε : Type) where
  dirOf : String → String
  mkdirAll : String → Option ε
  openAppend : String → Option ε
  writeErrs : Nat → Option ε

/-- Embedding of the write loop of `FileExporter.ExportSpans`: nil spans
are skipped, each non-nil span's markdown is appended to the file
content, and the loop returns at the first failing write.  `idx` counts
the write attempts so far, `content` is the file content. -/
def writeSpans (md : σ → String) (werrs : Nat → Option ε) :
    List (Option σ) → Nat → String → String × Option ε
  | [], _, content => (content, none)
  | none :: rest, idx, content => writeSpans md werrs rest idx content
  | some s :: rest, idx, content =>
    match werrs idx with
    | some err => (content, some err)
    | none => writeSpans md werrs rest (idx + 1) (content ++ md s)

/-- Embedding of `FileExporter.ExportSpans`.  `md` abstracts
`spanToMarkdown` (whose exact output depends on Go map iteration order
and wall-clock formatting), `fs` maps each path to its current content
(`""` for an absent file, matching append-mode create).  Returns the
new file-system content and the returned error. -/
def FileExporter.exportSpans (e : FileExporter) (md : σ → String) (os : OSModel ε)
    (fs : String → String) (spans : List (Option σ)) : (String → String) × Option ε :=
  if spans.length = 0 then (fs, none)
  else
    match (if os.dirOf e.filePath ≠ "" ∧ os.dirOf e.filePath ≠ "." then
        os.mkdirAll (os.dirOf e.filePath) else none) with
    | some err => (fs, some err)
    | none =>
      match os.openAppend e.filePath with
      | some err => (fs, some err)
      | none =>
        let res := writeSpans md os.writeErrs spans 0 (fs e.filePath)
        (fun p => if p = e.filePath then res.1 else fs p, res.2)

/-- Embedding of `FileExporter.ExportFiles`: a no-op that returns nil —
uploaded file payloads are never written to the local markdown file. -/
def FileExporter.exportFiles (_e : FileExporter) (fs : String → String)
    (_files : List (Option φ)) : (String → String) × Option ε :=
  (fs, none)

/-- Spec-side: the number of non-nil spans, i.e. of write attempts. -/
def nonNilCount (spans : List (Option σ)) : Nat :=
  (spans.filterMap id).length

/-- Spec-side: the error of the first failing write among `n` attempts
starting at attempt index `i`. -/
def firstWriteError (werrs : Nat → Option ε) : Nat → Nat → Option ε
  | 0, _ => none
  | Nat.succ k, i =>
    match werrs i with
    | some err => some err
    | none => firstWriteError werrs k (i + 1)

/-- Spec-side reading of the claim: the error of the first failing
filesystem operation of an ExportSpans call — directory creation when
needed, then open, then the writes of the non-nil spans. -/
def expectedExportError (e : FileExporter) (os : OSModel ε)
    (spans : List (Option σ)) : Option ε :=
  match (if os.dirOf e.filePath ≠ "" ∧ os.dirOf e.filePath ≠ "." then
      os.mkdirAll (os.dirOf e.filePath) else none) with
  | some err => some err
  | none =>
    match os.openAppend e.filePath with
    | some err => some err
    | none => firstWriteError os.writeErrs (nonNilCount spans) 0

/-- Concatenated markdown of the non-nil spans of a batch. -/
def mdConcat (md : σ → String) : List (Option σ) → String
  | [] => ""
  | none :: rest => mdConcat md rest
  | some s :: rest => md s ++ mdConcat md rest

/-- A concrete all-succeeding OS oracle for witnesses. -/
def osOK : OSModel Nat :=
  ⟨fun _ => "d", fun _ => none, fun _ => none, fun _ => none⟩

/-- Modelled from the spec: the bounded FIFO of §4.E (its Go source is
not in the repository snapshot).  Two capacity dimensions — maximum item
count and maximum accumulated byte size; each queued item carries its
byte size. -/
structure BoundedQueue (α : Type) where
  maxItems : Nat
  maxBytes : Nat
  items : List (α × Nat)

/-- Accumulated byte size of the queued items. -/
def BoundedQueue.byteTotal (q : BoundedQueue α) : Nat :=
  (q.items.map Prod.snd).sum

/-- Modelled from the spec: non-blocking enqueue — "if either bound
would be exceeded, the item is dropped".  Returns the new queue and
whether the item was admitted. -/
def BoundedQueue.enqueue (q : BoundedQueue α) (x : α) (sz : Nat) :
    BoundedQueue α × Bool :=
  if q.maxItems < q.items.length + 1 ∨ q.maxBytes < q.byteTotal + sz
  then (q, false)
  else ({ q with items := q.items ++ [(x, sz)] }, true)

/-- Modelled from the spec: dequeue removes the oldest item; byte
accounting is decremented because the item leaves `items`. -/
def BoundedQueue.dequeue (q : BoundedQueue α) :
    Option ((α × Nat) × BoundedQueue α) :=
  match q.items with
  | [] => none
  | it :: rest => some (it, { q with items := rest })

/-- A fresh empty queue with the given bounds. -/
def BoundedQueue.empty (α : Type) (n b : Nat) : BoundedQueue α :=
  ⟨n, b, []⟩

/-- States reachable from a fresh queue by enqueue / dequeue steps. -/
inductive BoundedQueue.Reachable : BoundedQueue α → Prop where
  | init (n b : Nat) : Reachable (BoundedQueue.empty α n b)
  | enq (q : BoundedQueue α) (x : α) (sz : Nat) :
      Reachable q → Reachable (q.enqueue x sz).1
  | deq (q : BoundedQueue α) (it : α × Nat) (q' : BoundedQueue α) :
      Reachable q → q.dequeue = some (it, q') → Reachable q'

/-- Modelled from the spec: one scheduling action of the span processor
of §4.G (its Go source is not in the repository snapshot) — a span
finishing (enqueue to SQ), or the consumer exporting a dequeued batch of
at most `n` spans from SQ or from SRQ with outcome `ok`. -/
inductive ProcStep (σ : Type) where
  | finish (s : σ)
  | exportSQ (n : Nat) (ok : Bool)
  | exportSRQ (n : Nat) (ok : Bool)

/-- Observable per-span events of the processor: enqueue to SQ, enqueue
to SRQ, successful export (`fromRetry` tells from which queue), drop. -/
inductive ProcEvent (σ : Type) where
  | enqSQ (s : σ)
  | enqSRQ (s : σ)
  | exported (fromRetry : Bool) (s : σ)
  | dropped (s : σ)
deriving DecidableEq

/-- The two span queues of the processor. -/
structure ProcState (σ : Type) where
  sq : List σ
  srq : List σ

/-- Modelled from the spec: the effect of one action.  On export
failure, a batch dequeued from SQ is re-enqueued (the original spans) to
SRQ; a batch dequeued from SRQ is not re-enqueued — one retry maximum,
then dropped. -/
def procStep (st : ProcState σ) : ProcStep σ → ProcState σ × List (ProcEvent σ)
  | .finish s => ({ st with sq := st.sq ++ [s] }, [.enqSQ s])
  | .exportSQ n true =>
    ({ st with sq := st.sq.drop n }, (st.sq.take n).map (ProcEvent.exported false))
  | .exportSQ n false =>
    ({ sq := st.sq.drop n, srq := st.srq ++ st.sq.take n },
      (st.sq.take n).map ProcEvent.enqSRQ)
  | .exportSRQ n true =>
    ({ st with srq := st.srq.drop n }, (st.srq.take n).map (ProcEvent.exported true))
  | .exportSRQ n false =>
    ({ st with srq := st.srq.drop n }, (st.srq.take n).map ProcEvent.dropped)

/-- Run a list of actions, concatenating the event logs. -/
def procRun (st : ProcState σ) : List (ProcStep σ) → ProcState σ × List (ProcEvent σ)
  | [] => (st, [])
  | stp :: rest =>
    let r := procStep st stp
    let r2 := procRun r.1 rest
    (r2.1, r.2 ++ r2.2)

/-- The initial processor state: both queues empty. -/
def initProc (σ : Type) : ProcState σ := ⟨[], []⟩

/-- Number of `finish s` actions in a step list. -/
def finishCount [DecidableEq σ] (s : σ) : List (ProcStep σ) → Nat
  | [] => 0
  | .finish t :: rest => (if t = s then 1 else 0) + finishCount s rest
  | .exportSQ _ _ :: rest => finishCount s rest
  | .exportSRQ _ _ :: rest => finishCount s rest

/-- Modelled from the spec: wire header strings are byte strings (Go
strings are byte slices); each element is one byte value. -/
abbrev ByteStr := List Nat

/-- Lowercase hex digit bytes: ASCII `0`-`9` and `a`-`f`. -/
def isLowerHexByte (b : Nat) : Bool :=
  (48 ≤ b && b ≤ 57) || (97 ≤ b && b ≤ 102)

/-- Valid trace id shape: exactly 32 lowercase hex bytes. -/
def validTraceID (t : ByteStr) : Bool :=
  t.length == 32 && t.all isLowerHexByte

/-- Valid span id shape: exactly 16 lowercase hex bytes. -/
def validSpanID (s : ByteStr) : Bool :=
  s.length == 16 && s.all isLowerHexByte

/-- Bytes kept verbatim by the URL query escaper: alphanumerics and
`-` `_` `.` `~`. -/
def isUnreservedByte (b : Nat) : Bool :=
  (48 ≤ b && b ≤ 57) || (65 ≤ b && b ≤ 90) || (97 ≤ b && b ≤ 122) ||
  b == 45 || b == 95 || b == 46 || b == 126

/-- Uppercase hex digit byte of a value below 16. -/
def hexDigitByte (n : Nat) : Nat :=
  if n < 10 then 48 + n else 55 + n

/-- Modelled from the spec: percent-encoding of a byte string
("URL-encoded serialization" of the baggage; the codec source is not in
the repository snapshot). -/
def urlEncode : ByteStr → ByteStr
  | [] => []
  | b :: rest =>
    if isUnreservedByte b then b :: urlEncode rest
    else 37 :: hexDigitByte (b / 16) :: hexDigitByte (b % 16) :: urlEncode rest

/-- Hex value of one digit byte, upper or lower case. -/
def hexVal (b : Nat) : Option Nat :=
  if 48 ≤ b && b ≤ 57 then some (b - 48)
  else if 65 ≤ b && b ≤ 70 then some (b - 55)
  else if 97 ≤ b && b ≤ 102 then some (b - 87)
  else none

/-- Modelled from the spec: percent-decoding; `none` on a truncated or
invalid escape sequence (`%` = byte 37). -/
def urlDecode : ByteStr → Option ByteStr
  | [] => some []
  | b :: rest =>
    if b == 37 then
      match rest with
      | h :: l :: rest2 =>
        match hexVal h, hexVal l, urlDecode rest2 with
        | some hv, some lv, some r => some ((hv * 16 + lv) :: r)
        | _, _, _ => none
      | _ => none
    else
      match urlDecode rest with
      | some r => some (b :: r)
      | none => none

/-- Split a byte string on a separator byte (like `strings.Split`). -/
def splitOnByte (sep : Nat) : ByteStr → List ByteStr
  | [] => [[]]
  | b :: rest =>
    if b == sep then [] :: splitOnByte sep rest
    else
      match splitOnByte sep rest with
      | [] => [[b]]
      | g :: gs => (b :: g) :: gs

/-- Modelled from the spec: the produced traceparent header
`{version}-{trace_id}-{span_id}-{flags}` with version `00` and flags
`01` (bytes: `-` = 45, `0` = 48, `1` = 49). -/
def formatTraceparent (t s : ByteStr) : ByteStr :=
  [48, 48] ++ [45] ++ t ++ [45] ++ s ++ [45] ++ [48, 49]

/-- Modelled from the spec: the tracestate header — URL-encoded baggage
serialized `k1=v1,k2=v2,...` (`=` = 61, `,` = 44). -/
def formatTracestate : List (ByteStr × ByteStr) → ByteStr
  | [] => []
  | [(k, v)] => urlEncode k ++ 61 :: urlEncode v
  | (k, v) :: rest => urlEncode k ++ 61 :: urlEncode v ++ 44 :: formatTracestate rest

/-- Modelled from the spec: the error taxonomy entry for wire carrier
parse failures. -/
inductive HeaderError where
  | headerParent
deriving DecidableEq

/-- The imported opaque span context: trace id, span id, baggage only. -/
structure SpanContext where
  traceID : ByteStr
  spanID : ByteStr
  baggage : List (ByteStr × ByteStr)
deriving DecidableEq

/-- Modelled from the spec: well-formedness of a traceparent header —
four `-`-separated segments, known version `00`, 32 lowercase hex bytes
of trace id, 16 of span id, two hex flag bytes.  Malformed input is
exactly the failure of this predicate. -/
def wellFormedTraceparent (h : ByteStr) : Bool :=
  match splitOnByte 45 h with
  | [v, t, s, f] =>
    v == [48, 48] && validTraceID t && validSpanID s &&
      (f.length == 2 && f.all isLowerHexByte)
  | _ => false

/-- Modelled from the spec: parse a traceparent header into the
(trace_id, span_id) pair; `none` when malformed. -/
def parseTraceparent (h : ByteStr) : Option (ByteStr × ByteStr) :=
  match splitOnByte 45 h with
  | [v, t, s, f] =>
    if v == [48, 48] && validTraceID t && validSpanID s &&
        (f.length == 2 && f.all isLowerHexByte)
    then some (t, s) else none
  | _ => none

/-- Parse one `k=v` tracestate entry: split on `=` and percent-decode
both halves. -/
def parseEntry (e : ByteStr) : Option (ByteStr × ByteStr) :=
  match splitOnByte 61 e with
  | [ek, ev] =>
    match urlDecode ek, urlDecode ev with
    | some k, some v => some (k, v)
    | _, _ => none
  | _ => none

/-- Parse every tracestate entry, failing if any entry is malformed. -/
def parseEntries : List ByteStr → Option (List (ByteStr × ByteStr))
  | [] => some []
  | e :: rest =>
    match parseEntry e, parseEntries rest with
    | some kv, some r => some (kv :: r)
    | _, _ => none

/-- Modelled from the spec: parse a tracestate header; on malformed
tracestate the baggage is dropped silently (degrade). -/
def parseTracestate (ts : ByteStr) : List (ByteStr × ByteStr) :=
  if ts = [] then []
  else
    match parseEntries (splitOnByte 44 ts) with
    | some b => b
    | none => []

/-- Modelled from the spec: parse the two carrier headers; a malformed
traceparent yields the HeaderParent error and no span context.  The
function is total — parsing never panics. -/
def parseHeaders (tp ts : ByteStr) : Except HeaderError SpanContext :=
  match parseTraceparent tp with
  | none => Except.error HeaderError.headerParent
  | some (t, s) => Except.ok ⟨t, s, parseTracestate ts⟩

theorem accOr_none_right (a : Option ε) : accOr a none = a := by
  cases a <;> rfl

theorem exportLoop_map_some (call : α → β → Option ε) (batch : β)
    (es : List α) (acc : Option ε) :
    exportLoop call batch (es.map some) acc
      = some (es.map (fun e => (e, batch)), accOr acc (firstError (fun e => call e batch) es)) := by
  induction es generalizing acc with
  | nil => cases acc <;> rfl
  | cons e rest ih =>
    simp only [List.map_cons, exportLoop, ih]
    cases hacc : acc with
    | some a => cases h : call e batch <;> simp [firstError, accOr, h]
    | none =>
      cases h : call e batch <;> simp [firstError, accOr, h]

theorem multi_exportSpans_run (es : List (Exporter σ φ ε)) (sb : List σ) :
    (MultiExporter.mk (es.map some)).exportSpans sb
      = some (es.map (fun e => (e, sb)), firstError (fun e => e.exportSpansFn sb) es) := by
  unfold MultiExporter.exportSpans
  cases es with
  | nil => rfl
  | cons e rest =>
    rw [if_neg (by simp)]
    rw [exportLoop_map_some]
    rfl

theorem multi_exportFiles_run (es : List (Exporter σ φ ε)) (fb : List φ) :
    (MultiExporter.mk (es.map some)).exportFiles fb
      = some (es.map (fun e => (e, fb)), firstError (fun e => e.exportFilesFn fb) es) := by
  unfold MultiExporter.exportFiles
  cases es with
  | nil => rfl
  | cons e rest =>
    rw [if_neg (by simp)]
    rw [exportLoop_map_some]
    rfl

/-- C1: a MultiExporter wrapping exporters `es` invokes each wrapped
exporter exactly once with the full input batch (the call log is exactly
one `(exporter, batch)` pair per child, in order, regardless of which
children fail), and returns the first error among the children, or nil
when every child succeeds; likewise for ExportFiles. -/
theorem spec_C1 (es : List (Exporter σ φ ε)) (sb : List σ) (fb : List φ) :
    (MultiExporter.mk (es.map some)).exportSpans sb
      = some (es.map (fun e => (e, sb)), firstError (fun e => e.exportSpansFn sb) es) ∧
    (MultiExporter.mk (es.map some)).exportFiles fb
      = some (es.map (fun e => (e, fb)), firstError (fun e => e.exportFilesFn fb) es) :=
  ⟨multi_exportSpans_run es sb, multi_exportFiles_run es fb⟩

theorem newMulti_foldl (args acc : List (Option (Exporter σ φ ε))) :
    args.foldl (fun acc e => if e.isSome then acc ++ [e] else acc) acc
      = acc ++ args.filter (fun e => e.isSome) := by
  induction args generalizing acc with
  | nil => simp
  | cons e rest ih =>
    simp only [List.foldl_cons, List.filter_cons]
    cases e.isSome with
    | true => rw [if_pos rfl, ih, if_pos rfl]; simp
    | false => rw [if_neg (by simp), ih, if_neg (by simp)]

/-- C2: NewMultiExporter keeps exactly the non-nil arguments in their
original order (the `filter isSome` subsequence), and ExporterCount on
the result is the number of non-nil arguments. -/
theorem spec_C2 (args : List (Option (Exporter σ φ ε))) :
    (NewMultiExporter args).exporters = args.filter (fun e => e.isSome) ∧
    (NewMultiExporter args).ExporterCount = (args.filter (fun e => e.isSome)).length := by
  have h : (NewMultiExporter args).exporters = args.filter (fun e => e.isSome) := by
    unfold NewMultiExporter
    rw [newMulti_foldl]
    simp
  exact ⟨h, by rw [MultiExporter.ExporterCount, h]⟩

/-- C3: a MultiExporter constructed from an empty or all-nil argument
list has no children, and its ExportSpans / ExportFiles return nil (and
make no child calls) on every batch. -/
theorem spec_C3 (args : List (Option (Exporter σ φ ε))) (sb : List σ) (fb : List φ)
    (h : ∀ e ∈ args, e = none) :
    (NewMultiExporter args).exportSpans sb = some ([], none) ∧
    (NewMultiExporter args).exportFiles fb = some ([], none) := by
  have hexp : (NewMultiExporter args).exporters = [] := by
    unfold NewMultiExporter
    rw [newMulti_foldl]
    simp only [List.nil_append]
    rw [List.filter_eq_nil_iff]
    intro a ha
    rw [h a ha]
    simp
  constructor
  · unfold MultiExporter.exportSpans
    rw [hexp]
    rfl
  · unfold MultiExporter.exportFiles
    rw [hexp]
    rfl

/-- C3 witness: concrete all-nil argument list. -/
theorem spec_C3_witness :
    (NewMultiExporter ([none, none] : List (Option (Exporter Nat Nat Nat)))).exportSpans [5]
        = some ([], none) ∧
    (NewMultiExporter ([none, none] : List (Option (Exporter Nat Nat Nat)))).exportFiles [5]
        = some ([], none) :=
  spec_C3 [none, none] [5] [5] (by intro e he; simpa using he)

theorem exportLoop_isSome (call : α → β → Option ε) (batch : β)
    (l : List (Option α)) (acc : Option ε) (h : ∀ e ∈ l, e.isSome) :
    (exportLoop call batch l acc).isSome := by
  induction l generalizing acc with
  | nil => rfl
  | cons e rest ih =>
    cases e with
    | none => exact absurd (h none (by simp)) (by simp)
    | some x =>
      have hrest : ∀ e ∈ rest, e.isSome := fun e he => h e (by simp [he])
      have hr : ∀ a : Option ε, (exportLoop call batch rest a).isSome :=
        fun a => ih a hrest
      simp only [exportLoop]
      split
      next heq => exact absurd heq (Option.ne_none_iff_isSome.mpr (hr _))
      next calls res heq => rfl

/-- C10: the wrapped-exporter list never contains nil — established by
NewMultiExporter, preserved by AddExporter (which ignores nil), and
under it ExportSpans / ExportFiles never dereference a nil exporter
(their run result is `some`, never the panic marker `none`). -/
theorem spec_C10 (σ φ ε : Type) :
    (∀ args : List (Option (Exporter σ φ ε)),
      ∀ e ∈ (NewMultiExporter args).exporters, e.isSome) ∧
    (∀ (m : MultiExporter σ φ ε) (x : Option (Exporter σ φ ε)),
      (∀ e ∈ m.exporters, e.isSome) → ∀ e ∈ (m.AddExporter x).exporters, e.isSome) ∧
    (∀ (m : MultiExporter σ φ ε) (sb : List σ) (fb : List φ),
      (∀ e ∈ m.exporters, e.isSome) →
      (m.exportSpans sb).isSome ∧ (m.exportFiles fb).isSome) := by
  refine ⟨?_, ?_, ?_⟩
  · intro args e he
    have h := (spec_C2 args).1
    rw [h] at he
    exact (List.mem_filter.mp he).2
  · intro m x hm e he
    unfold MultiExporter.AddExporter at he
    cases hx : x.isSome with
    | false => rw [if_neg (by simp [hx])] at he; exact hm e he
    | true =>
      rw [if_pos hx] at he
      simp only [List.mem_append, List.mem_singleton] at he
      cases he with
      | inl h => exact hm e h
      | inr h => rw [h]; exact hx
  · intro m sb fb hm
    constructor
    · unfold MultiExporter.exportSpans
      by_cases hlen : m.exporters.length = 0
      · rw [if_pos hlen]; rfl
      · rw [if_neg hlen]; exact exportLoop_isSome _ _ _ _ hm
    · unfold MultiExporter.exportFiles
      by_cases hlen : m.exporters.length = 0
      · rw [if_pos hlen]; rfl
      · rw [if_neg hlen]; exact exportLoop_isSome _ _ _ _ hm

/-- C10 witness: a concrete one-exporter MultiExporter runs both
operations without hitting a nil exporter. -/
theorem spec_C10_witness :
    ((MultiExporter.mk [some exNone]).exportSpans [3]).isSome ∧
    ((MultiExporter.mk [some exNone]).exportFiles [4]).isSome :=
  (spec_C10 Nat Nat Nat).2.2 (MultiExporter.mk [some exNone]) [3] [4]
    (by intro e he; simp only [List.mem_singleton] at he; rw [he]; rfl)

theorem writeSpans_err (md : σ → String) (werrs : Nat → Option ε)
    (spans : List (Option σ)) (idx : Nat) (content : String) :
    (writeSpans md werrs spans idx content).2
      = firstWriteError werrs (nonNilCount spans) idx := by
  induction spans generalizing idx content with
  | nil => rfl
  | cons o rest ih =>
    cases o with
    | none =>
      have hc : nonNilCount (none :: rest) = nonNilCount rest := by
        simp [nonNilCount]
      rw [hc]
      exact ih idx content
    | some s =>
      have hc : nonNilCount (some s :: rest) = Nat.succ (nonNilCount rest) := by
        simp [nonNilCount, Nat.succ_eq_add_one, Nat.add_comm]
      rw [hc]
      simp only [writeSpans, firstWriteError]
      cases werrs idx with
      | some err => rfl
      | none => exact ih (idx + 1) (content ++ md s)

theorem writeSpans_grows (md : σ → String) (werrs : Nat → Option ε)
    (spans : List (Option σ)) (idx : Nat) (content : String) :
    ∃ t, (writeSpans md werrs spans idx content).1 = content ++ t := by
  induction spans generalizing idx content with
  | nil => exact ⟨"", by simp [writeSpans]⟩
  | cons o rest ih =>
    cases o with
    | none => exact ih idx content
    | some s =>
      simp only [writeSpans]
      cases werrs idx with
      | some err => exact ⟨"", by simp⟩
      | none =>
        obtain ⟨t, ht⟩ := ih (idx + 1) (content ++ md s)
        exact ⟨md s ++ t, by rw [ht, String.append_assoc]⟩

theorem writeSpans_ok (md : σ → String) (werrs : Nat → Option ε)
    (spans : List (Option σ)) (idx : Nat) (content : String)
    (h : (writeSpans md werrs spans idx content).2 = none) :
    (writeSpans md werrs spans idx content).1 = content ++ mdConcat md spans := by
  induction spans generalizing idx content with
  | nil => simp [writeSpans, mdConcat]
  | cons o rest ih =>
    cases o with
    | none =>
      simp only [writeSpans, mdConcat] at h ⊢
      exact ih idx content h
    | some s =>
      simp only [writeSpans, mdConcat] at h ⊢
      cases hw : werrs idx with
      | some err =>
        rw [hw] at h
        exact Option.noConfusion h
      | none =>
        rw [hw] at h
        show (writeSpans md werrs rest (idx + 1) (content ++ md s)).1
          = content ++ (md s ++ mdConcat md rest)
        rw [ih (idx + 1) (content ++ md s) h, String.append_assoc]

theorem firstWriteError_eq_none (werrs : Nat → Option ε) (n i : Nat) :
    firstWriteError werrs n i = none ↔ ∀ j, j < n → werrs (i + j) = none := by
  induction n generalizing i with
  | zero => simp [firstWriteError]
  | succ k ih =>
    simp only [firstWriteError]
    cases hw : werrs i with
    | some err =>
      constructor
      · intro h; exact absurd h (by simp)
      · intro h
        have h0 := h 0 (by omega)
        rw [Nat.add_zero, hw] at h0
        exact absurd h0 (by simp)
    | none =>
      rw [ih (i + 1)]
      constructor
      · intro h j hj
        cases j with
        | zero => simpa using hw
        | succ j' =>
          have heq : i + (j' + 1) = i + 1 + j' := by omega
          rw [heq]
          exact h j' (by omega)
      · intro h j hj
        have heq : i + 1 + j = i + (j + 1) := by omega
        rw [heq]
        exact h (j + 1) (by omega)

theorem openWrite_none (os : OSModel ε) (p : String) (n : Nat) :
    (match os.openAppend p with
      | some err => some err
      | none => firstWriteError os.writeErrs n 0) = none ↔
    os.openAppend p = none ∧ ∀ j, j < n → os.writeErrs j = none := by
  cases hop : os.openAppend p with
  | some err =>
    constructor
    · intro hcon; exact Option.noConfusion hcon
    · rintro ⟨h1, _⟩; exact Option.noConfusion h1
  | none =>
    rw [firstWriteError_eq_none]
    constructor
    · intro hj
      refine ⟨rfl, fun j hjn => ?_⟩
      rw [← Nat.zero_add j]
      exact hj j hjn
    · rintro ⟨_, h2⟩ j hjn
      rw [Nat.zero_add]
      exact h2 j hjn

theorem expectedExportError_none (e : FileExporter) (os : OSModel ε)
    (spans : List (Option σ)) :
    expectedExportError e os spans = none ↔
      ((os.dirOf e.filePath ≠ "" ∧ os.dirOf e.filePath ≠ ".") →
        os.mkdirAll (os.dirOf e.filePath) = none) ∧
      os.openAppend e.filePath = none ∧
      ∀ j, j < nonNilCount spans → os.writeErrs j = none := by
  unfold expectedExportError
  by_cases hdir : os.dirOf e.filePath ≠ "" ∧ os.dirOf e.filePath ≠ "."
  · rw [if_pos hdir]
    cases hmk : os.mkdirAll (os.dirOf e.filePath) with
    | some err =>
      constructor
      · intro hcon; exact Option.noConfusion hcon
      · rintro ⟨h1, _, _⟩; exact Option.noConfusion (h1 hdir)
    | none =>
      rw [openWrite_none]
      constructor
      · rintro ⟨h2, h3⟩; exact ⟨fun _ => rfl, h2, h3⟩
      · rintro ⟨_, h2, h3⟩; exact ⟨h2, h3⟩
  · rw [if_neg hdir]
    rw [openWrite_none]
    constructor
    · rintro ⟨h2, h3⟩; exact ⟨fun hd => absurd hd hdir, h2, h3⟩
    · rintro ⟨_, h2, h3⟩; exact ⟨h2, h3⟩

theorem exportSpans_err (e : FileExporter) (md : σ → String) (os : OSModel ε)
    (fs : String → String) (spans : List (Option σ)) (h : spans ≠ []) :
    (e.exportSpans md os fs spans).2 = expectedExportError e os spans := by
  unfold FileExporter.exportSpans expectedExportError
  rw [if_neg (fun hc => h (List.length_eq_zero.mp hc))]
  cases hmk : (if os.dirOf e.filePath ≠ "" ∧ os.dirOf e.filePath ≠ "." then
      os.mkdirAll (os.dirOf e.filePath) else none) with
  | some err => rfl
  | none =>
    cases hop : os.openAppend e.filePath with
    | some err => rfl
    | none => exact writeSpans_err md os.writeErrs spans 0 (fs e.filePath)

/-- C4: ExportSpans returns nil for an empty span list without touching
the filesystem; for a non-empty list its returned error is the error of
the first failing filesystem operation (mkdir when the directory is
needed, then open, then the writes of the non-nil spans), and it is nil
exactly when all of those operations succeed. -/
theorem spec_C4 (e : FileExporter) (md : σ → String) (os : OSModel ε)
    (fs : String → String) (spans : List (Option σ)) (h : spans ≠ []) :
    e.exportSpans md os fs [] = (fs, none) ∧
    (e.exportSpans md os fs spans).2 = expectedExportError e os spans ∧
    ((e.exportSpans md os fs spans).2 = none ↔
      ((os.dirOf e.filePath ≠ "" ∧ os.dirOf e.filePath ≠ ".") →
        os.mkdirAll (os.dirOf e.filePath) = none) ∧
      os.openAppend e.filePath = none ∧
      ∀ j, j < nonNilCount spans → os.writeErrs j = none) := by
  refine ⟨rfl, exportSpans_err e md os fs spans h, ?_⟩
  rw [exportSpans_err e md os fs spans h]
  exact expectedExportError_none e os spans

/-- C4 witness: a concrete non-empty batch against an all-succeeding OS
oracle. -/
theorem spec_C4_witness :
    (NewFileExporter "").exportSpans (fun n : Nat => toString n) osOK (fun _ => "") []
        = (fun _ => "", none) ∧
    ((NewFileExporter "").exportSpans (fun n : Nat => toString n) osOK (fun _ => "")
        [some 1]).2 = expectedExportError (NewFileExporter "") osOK [some 1] ∧
    (((NewFileExporter "").exportSpans (fun n : Nat => toString n) osOK (fun _ => "")
        [some 1]).2 = none ↔
      ((osOK.dirOf (NewFileExporter "").filePath ≠ "" ∧
          osOK.dirOf (NewFileExporter "").filePath ≠ ".") →
        osOK.mkdirAll (osOK.dirOf (NewFileExporter "").filePath) = none) ∧
      osOK.openAppend (NewFileExporter "").filePath = none ∧
      ∀ j, j < nonNilCount [some 1] → osOK.writeErrs j = none) :=
  spec_C4 (NewFileExporter "") (fun n : Nat => toString n) osOK (fun _ => "")
    [some 1] (by simp)

/-- C8: ExportFiles is a pure no-op — it returns nil for every input
file list and leaves the filesystem contents untouched. -/
theorem spec_C8 (φ ε : Type) (e : FileExporter) (fs : String → String)
    (files : List (Option φ)) :
    (e.exportFiles fs files : (String → String) × Option ε) = (fs, none) :=
  rfl

/-- C9: ExportSpans only appends to its file — the previous content is
always a left factor of the new content of `filePath`; when the call
returns nil the appended suffix is exactly the markdown of the non-nil
spans; and every other path is untouched. -/
theorem spec_C9 (e : FileExporter) (md : σ → String) (os : OSModel ε)
    (fs : String → String) (spans : List (Option σ)) :
    (∃ t, (e.exportSpans md os fs spans).1 e.filePath = fs e.filePath ++ t) ∧
    ((e.exportSpans md os fs spans).2 = none →
      (e.exportSpans md os fs spans).1 e.filePath
        = fs e.filePath ++ mdConcat md spans) ∧
    (∀ p, p ≠ e.filePath → (e.exportSpans md os fs spans).1 p = fs p) := by
  unfold FileExporter.exportSpans
  by_cases hlen : spans.length = 0
  · rw [if_pos hlen]
    have hsp : spans = [] := List.length_eq_zero.mp hlen
    subst hsp
    refine ⟨⟨"", by simp⟩, fun _ => ?_, fun p _ => rfl⟩
    show fs e.filePath = fs e.filePath ++ mdConcat md []
    simp [mdConcat]
  · rw [if_neg hlen]
    cases hmk : (if os.dirOf e.filePath ≠ "" ∧ os.dirOf e.filePath ≠ "." then
        os.mkdirAll (os.dirOf e.filePath) else none) with
    | some err =>
      refine ⟨⟨"", by simp⟩, fun hcon => absurd hcon (by simp), fun p _ => rfl⟩
    | none =>
      cases hop : os.openAppend e.filePath with
      | some err =>
        refine ⟨⟨"", by simp⟩, fun hcon => absurd hcon (by simp), fun p _ => rfl⟩
      | none =>
        refine ⟨?_, ?_, ?_⟩
        · obtain ⟨t, ht⟩ := writeSpans_grows md os.writeErrs spans 0 (fs e.filePath)
          exact ⟨t, by simpa using ht⟩
        · intro h2
          have h3 := writeSpans_ok md os.writeErrs spans 0 (fs e.filePath) h2
          simpa using h3
        · intro p hp
          simp [hp]

/-- C9 witness: a concrete successful call on a file that already holds
content `"x"`. -/
theorem spec_C9_witness :
    (∃ t, ((NewFileExporter "f").exportSpans (fun n : Nat => toString n) osOK
        (fun _ => "x") [some 1]).1 "f" = "x" ++ t) ∧
    ((NewFileExporter "f").exportSpans (fun n : Nat => toString n) osOK
        (fun _ => "x") [some 1]).1 "f"
      = "x" ++ mdConcat (fun n : Nat => toString n) [some 1] ∧
    ((NewFileExporter "f").exportSpans (fun n : Nat => toString n) osOK
        (fun _ => "x") [some 1]).1 "g" = "x" :=
  ⟨(spec_C9 (NewFileExporter "f") (fun n : Nat => toString n) osOK
      (fun _ => "x") [some 1]).1,
   (spec_C9 (NewFileExporter "f") (fun n : Nat => toString n) osOK
      (fun _ => "x") [some 1]).2.1 rfl,
   (spec_C9 (NewFileExporter "f") (fun n : Nat => toString n) osOK
      (fun _ => "x") [some 1]).2.2 "g" (by decide)⟩

/-- C7: every reachable state of a bounded queue holds at most
`maxItems` items and at most `maxBytes` accumulated bytes; and an
enqueue that would exceed either bound returns the queue unchanged and
`false` — the item is dropped, never admitted, and enqueue is a total
function (it never blocks). -/
theorem spec_C7 (α : Type) :
    (∀ q : BoundedQueue α, q.Reachable →
      q.items.length ≤ q.maxItems ∧ q.byteTotal ≤ q.maxBytes) ∧
    (∀ (q : BoundedQueue α) (x : α) (sz : Nat),
      q.maxItems < q.items.length + 1 ∨ q.maxBytes < q.byteTotal + sz →
      q.enqueue x sz = (q, false)) := by
  constructor
  · intro q hq
    induction hq with
    | init n b => exact ⟨Nat.zero_le n, Nat.zero_le b⟩
    | enq q x sz hq ih =>
      unfold BoundedQueue.enqueue
      by_cases hc : q.maxItems < q.items.length + 1 ∨ q.maxBytes < q.byteTotal + sz
      · rw [if_pos hc]; exact ih
      · rw [if_neg hc]
        push_neg at hc
        obtain ⟨h1, h2⟩ := hc
        constructor
        · simpa using h1
        · show (((q.items ++ [(x, sz)]).map Prod.snd)).sum ≤ q.maxBytes
          rw [List.map_append, List.sum_append]
          simp only [List.map_cons, List.map_nil, List.sum_cons, List.sum_nil]
          unfold BoundedQueue.byteTotal at h2
          omega
    | deq q it q' hq hdq ih =>
      unfold BoundedQueue.dequeue at hdq
      cases hitems : q.items with
      | nil => rw [hitems] at hdq; exact Option.noConfusion hdq
      | cons hd tl =>
        rw [hitems] at hdq
        have h2 := Option.some.inj hdq
        rw [Prod.mk.injEq] at h2
        obtain ⟨h3, h4⟩ := h2
        subst h4
        obtain ⟨ihl, ihb⟩ := ih
        rw [hitems] at ihl
        constructor
        · show tl.length ≤ q.maxItems
          simp only [List.length_cons] at ihl
          omega
        · show ((tl.map Prod.snd)).sum ≤ q.maxBytes
          unfold BoundedQueue.byteTotal at ihb
          rw [hitems] at ihb
          simp only [List.map_cons, List.sum_cons] at ihb
          omega
  · intro q x sz hc
    unfold BoundedQueue.enqueue
    rw [if_pos hc]

/-- C7 witness: the state after one admitted enqueue respects both
bounds, and a full queue drops an over-budget enqueue unchanged. -/
theorem spec_C7_witness :
    (((BoundedQueue.empty Nat 2 10).enqueue 7 4).1.items.length ≤ 2 ∧
      ((BoundedQueue.empty Nat 2 10).enqueue 7 4).1.byteTotal ≤ 10) ∧
    (BoundedQueue.mk 1 10 [(0, 3)]).enqueue 5 4 = (BoundedQueue.mk 1 10 [(0, 3)], false) :=
  ⟨(spec_C7 Nat).1 ((BoundedQueue.empty Nat 2 10).enqueue 7 4).1
      (BoundedQueue.Reachable.enq (BoundedQueue.empty Nat 2 10) 7 4
        (BoundedQueue.Reachable.init 2 10)),
   (spec_C7 Nat).2 (BoundedQueue.mk 1 10 [(0, 3)]) 5 4 (Or.inl (by decide))⟩

theorem count_map_ne [DecidableEq α] [DecidableEq β] (f : α → β) (y : β)
    (hy : ∀ a, ¬ f a = y) (l : List α) : (l.map f).count y = 0 :=
  List.count_eq_zero.mpr (fun hmem => by
    obtain ⟨a, _, hfa⟩ := List.mem_map.mp hmem
    exact hy a hfa)

theorem enqSQ_inj (σ : Type) : Function.Injective (ProcEvent.enqSQ (σ := σ)) :=
  fun _ _ h => ProcEvent.enqSQ.inj h

theorem enqSRQ_inj (σ : Type) : Function.Injective (ProcEvent.enqSRQ (σ := σ)) :=
  fun _ _ h => ProcEvent.enqSRQ.inj h

theorem exported_inj (σ : Type) (b : Bool) :
    Function.Injective (ProcEvent.exported (σ := σ) b) :=
  fun _ _ h => (ProcEvent.exported.inj h).2

theorem dropped_inj (σ : Type) : Function.Injective (ProcEvent.dropped (σ := σ)) :=
  fun _ _ h => ProcEvent.dropped.inj h

theorem count_take_drop [DecidableEq σ] (s : σ) (l : List σ) (n : Nat) :
    (l.take n).count s + (l.drop n).count s = l.count s := by
  rw [← List.count_append, List.take_append_drop]

theorem procRun_inv [DecidableEq σ] (s : σ) (st : ProcState σ)
    (steps : List (ProcStep σ)) :
    (procRun st steps).2.count (ProcEvent.enqSQ s) + st.sq.count s
      = (procRun st steps).1.sq.count s
        + (procRun st steps).2.count (ProcEvent.exported false s)
        + (procRun st steps).2.count (ProcEvent.enqSRQ s) ∧
    (procRun st steps).2.count (ProcEvent.enqSRQ s) + st.srq.count s
      = (procRun st steps).1.srq.count s
        + (procRun st steps).2.count (ProcEvent.exported true s)
        + (procRun st steps).2.count (ProcEvent.dropped s) := by
  induction steps generalizing st with
  | nil => simp [procRun]
  | cons stp rest ih =>
    obtain ⟨ih1, ih2⟩ := ih (procStep st stp).1
    simp only [procRun, List.count_append]
    cases stp with
    | finish t =>
      simp only [procStep] at ih1 ih2 ⊢
      have c1 : [ProcEvent.enqSQ t].count (ProcEvent.enqSQ s)
          = if t = s then 1 else 0 := by
        simp [List.count_singleton']
      have c2 : [ProcEvent.enqSQ t].count (ProcEvent.exported false s) = 0 := by simp
      have c3 : [ProcEvent.enqSQ t].count (ProcEvent.enqSRQ s) = 0 := by simp
      have c4 : [ProcEvent.enqSQ t].count (ProcEvent.exported true s) = 0 := by simp
      have c5 : [ProcEvent.enqSQ t].count (ProcEvent.dropped s) = 0 := by simp
      have c6 : (st.sq ++ [t]).count s = st.sq.count s + (if t = s then 1 else 0) := by
        rw [List.count_append]
        simp [List.count_singleton']
      rw [c6] at ih1
      rw [c1, c2, c3, c4, c5]
      omega
    | exportSQ n ok =>
      cases ok with
      | true =>
        simp only [procStep] at ih1 ih2 ⊢
        have c1 : ((st.sq.take n).map (ProcEvent.exported false)).count
            (ProcEvent.exported false s) = (st.sq.take n).count s :=
          List.count_map_of_injective _ _ (exported_inj σ false) s
        have c2 : ((st.sq.take n).map (ProcEvent.exported false)).count
            (ProcEvent.enqSQ s) = 0 := count_map_ne _ _ (by intro a h; cases h) _
        have c3 : ((st.sq.take n).map (ProcEvent.exported false)).count
            (ProcEvent.enqSRQ s) = 0 := count_map_ne _ _ (by intro a h; cases h) _
        have c4 : ((st.sq.take n).map (ProcEvent.exported false)).count
            (ProcEvent.exported true s) = 0 :=
          count_map_ne _ _ (by intro a h; exact Bool.noConfusion (ProcEvent.exported.inj h).1) _
        have c5 : ((st.sq.take n).map (ProcEvent.exported false)).count
            (ProcEvent.dropped s) = 0 := count_map_ne _ _ (by intro a h; cases h) _
        have c6 := count_take_drop s st.sq n
        rw [c1, c2, c3, c4, c5]
        omega
      | false =>
        simp only [procStep] at ih1 ih2 ⊢
        have c1 : ((st.sq.take n).map ProcEvent.enqSRQ).count
            (ProcEvent.enqSRQ s) = (st.sq.take n).count s :=
          List.count_map_of_injective _ _ (enqSRQ_inj σ) s
        have c2 : ((st.sq.take n).map ProcEvent.enqSRQ).count
            (ProcEvent.enqSQ s) = 0 := count_map_ne _ _ (by intro a h; cases h) _
        have c3 : ((st.sq.take n).map ProcEvent.enqSRQ).count
            (ProcEvent.exported false s) = 0 := count_map_ne _ _ (by intro a h; cases h) _
        have c4 : ((st.sq.take n).map ProcEvent.enqSRQ).count
            (ProcEvent.exported true s) = 0 := count_map_ne _ _ (by intro a h; cases h) _
        have c5 : ((st.sq.take n).map ProcEvent.enqSRQ).count
            (ProcEvent.dropped s) = 0 := count_map_ne _ _ (by intro a h; cases h) _
        have c6 := count_take_drop s st.sq n
        have c7 : (st.srq ++ st.sq.take n).count s
            = st.srq.count s + (st.sq.take n).count s := List.count_append _ _ _
        rw [c7] at ih2
        rw [c1, c2, c3, c4, c5]
        omega
    | exportSRQ n ok =>
      cases ok with
      | true =>
        simp only [procStep] at ih1 ih2 ⊢
        have c1 : ((st.srq.take n).map (ProcEvent.exported true)).count
            (ProcEvent.exported true s) = (st.srq.take n).count s :=
          List.count_map_of_injective _ _ (exported_inj σ true) s
        have c2 : ((st.srq.take n).map (ProcEvent.exported true)).count
            (ProcEvent.enqSQ s) = 0 := count_map_ne _ _ (by intro a h; cases h) _
        have c3 : ((st.srq.take n).map (ProcEvent.exported true)).count
            (ProcEvent.enqSRQ s) = 0 := count_map_ne _ _ (by intro a h; cases h) _
        have c4 : ((st.srq.take n).map (ProcEvent.exported true)).count
            (ProcEvent.exported false s) = 0 :=
          count_map_ne _ _ (by intro a h; exact Bool.noConfusion (ProcEvent.exported.inj h).1) _
        have c5 : ((st.srq.take n).map (ProcEvent.exported true)).count
            (ProcEvent.dropped s) = 0 := count_map_ne _ _ (by intro a h; cases h) _
        have c6 := count_take_drop s st.srq n
        rw [c1, c2, c3, c4, c5]
        omega
      | false =>
        simp only [procStep] at ih1 ih2 ⊢
        have c1 : ((st.srq.take n).map ProcEvent.dropped).count
            (ProcEvent.dropped s) = (st.srq.take n).count s :=
          List.count_map_of_injective _ _ (dropped_inj σ) s
        have c2 : ((st.srq.take n).map ProcEvent.dropped).count
            (ProcEvent.enqSQ s) = 0 := count_map_ne _ _ (by intro a h; cases h) _
        have c3 : ((st.srq.take n).map ProcEvent.dropped).count
            (ProcEvent.enqSRQ s) = 0 := count_map_ne _ _ (by intro a h; cases h) _
        have c4 : ((st.srq.take n).map ProcEvent.dropped).count
            (ProcEvent.exported false s) = 0 := count_map_ne _ _ (by intro a h; cases h) _
        have c5 : ((st.srq.take n).map ProcEvent.dropped).count
            (ProcEvent.exported true s) = 0 := count_map_ne _ _ (by intro a h; cases h) _
        have c6 := count_take_drop s st.srq n
        rw [c1, c2, c3, c4, c5]
        omega

theorem procRun_append (st : ProcState σ) (pre post : List (ProcStep σ)) :
    procRun st (pre ++ post)
      = ((procRun (procRun st pre).1 post).1,
         (procRun st pre).2 ++ (procRun (procRun st pre).1 post).2) := by
  induction pre generalizing st with
  | nil => simp [procRun]
  | cons stp rest ih => simp [procRun, ih, List.append_assoc]

theorem procRun_enqSQ_count [DecidableEq σ] (s : σ) (st : ProcState σ)
    (steps : List (ProcStep σ)) :
    (procRun st steps).2.count (ProcEvent.enqSQ s) = finishCount s steps := by
  induction steps generalizing st with
  | nil => rfl
  | cons stp rest ih =>
    simp only [procRun, List.count_append]
    cases stp with
    | finish t =>
      simp only [procStep, finishCount]
      have c1 : [ProcEvent.enqSQ t].count (ProcEvent.enqSQ s)
          = if t = s then 1 else 0 := by
        simp [List.count_singleton']
      rw [c1, ih]
    | exportSQ n ok =>
      cases ok with
      | true =>
        simp only [procStep, finishCount]
        rw [count_map_ne _ _ (fun a h => by cases h) _, ih, Nat.zero_add]
      | false =>
        simp only [procStep, finishCount]
        rw [count_map_ne _ _ (fun a h => by cases h) _, ih, Nat.zero_add]
    | exportSRQ n ok =>
      cases ok with
      | true =>
        simp only [procStep, finishCount]
        rw [count_map_ne _ _ (fun a h => by cases h) _, ih, Nat.zero_add]
      | false =>
        simp only [procStep, finishCount]
        rw [count_map_ne _ _ (fun a h => by cases h) _, ih, Nat.zero_add]

theorem finishCount_append [DecidableEq σ] (s : σ) (pre post : List (ProcStep σ)) :
    finishCount s (pre ++ post) = finishCount s pre + finishCount s post := by
  induction pre with
  | nil => simp [finishCount]
  | cons stp rest ih =>
    cases stp with
    | finish t =>
      show (if t = s then 1 else 0) + finishCount s (rest ++ post)
          = ((if t = s then 1 else 0) + finishCount s rest) + finishCount s post
      rw [ih]
      omega
    | exportSQ n ok =>
      show finishCount s (rest ++ post) = finishCount s rest + finishCount s post
      exact ih
    | exportSRQ n ok =>
      show finishCount s (rest ++ post) = finishCount s rest + finishCount s post
      exact ih

theorem initProc_sq (σ : Type) : (initProc σ).sq = [] := rfl

theorem initProc_srq (σ : Type) : (initProc σ).srq = [] := rfl

/-- C6: over any run of the span processor from empty queues, for every
span `s`: SRQ-enqueue events number at most SQ-enqueue events, drop
events at most SRQ-enqueue events, and SQ-enqueue events equal the
`finish s` actions; hence a span finished once is re-enqueued to SRQ at
most once — and exactly once when its SQ export fails, since a failed
SQ batch containing `s` always emits an SRQ-enqueue event for it (last
conjunct).  After `s` has been dropped (failed from SRQ), the remainder
of the run contains no further enqueue event for `s` on any queue. -/
theorem spec_C6 [DecidableEq σ] (s : σ) (steps pre post : List (ProcStep σ))
    (hsplit : steps = pre ++ post) :
    (procRun (initProc σ) steps).2.count (ProcEvent.enqSRQ s)
        ≤ (procRun (initProc σ) steps).2.count (ProcEvent.enqSQ s) ∧
    (procRun (initProc σ) steps).2.count (ProcEvent.dropped s)
        ≤ (procRun (initProc σ) steps).2.count (ProcEvent.enqSRQ s) ∧
    (procRun (initProc σ) steps).2.count (ProcEvent.enqSQ s) = finishCount s steps ∧
    (finishCount s steps = 1 →
      (procRun (initProc σ) steps).2.count (ProcEvent.enqSRQ s) ≤ 1 ∧
      (ProcEvent.dropped s ∈ (procRun (initProc σ) pre).2 →
        (procRun (procRun (initProc σ) pre).1 post).2.count (ProcEvent.enqSQ s) = 0 ∧
        (procRun (procRun (initProc σ) pre).1 post).2.count (ProcEvent.enqSRQ s) = 0)) ∧
    (∀ (st : ProcState σ) (n : Nat), s ∈ st.sq.take n →
      ProcEvent.enqSRQ s ∈ (procStep st (ProcStep.exportSQ n false)).2) := by
  subst hsplit
  obtain ⟨h1, h2⟩ := procRun_inv s (initProc σ) (pre ++ post)
  simp only [initProc_sq, initProc_srq, List.count_nil, Nat.add_zero] at h1 h2
  have hcnt := procRun_enqSQ_count s (initProc σ) (pre ++ post)
  refine ⟨by omega, by omega, hcnt, ?_, ?_⟩
  · intro hfin
    constructor
    · omega
    · intro hdrop
      obtain ⟨p1, p2⟩ := procRun_inv s (initProc σ) pre
      simp only [initProc_sq, initProc_srq, List.count_nil, Nat.add_zero] at p1 p2
      have hd1 : 0 < (procRun (initProc σ) pre).2.count (ProcEvent.dropped s) :=
        List.count_pos_iff.mpr hdrop
      have hpreF := procRun_enqSQ_count s (initProc σ) pre
      have hpostF := procRun_enqSQ_count s (procRun (initProc σ) pre).1 post
      have happ := finishCount_append s pre post
      have hsplitlog := procRun_append (initProc σ) pre post
      have hcount2 : (procRun (initProc σ) (pre ++ post)).2.count (ProcEvent.enqSRQ s)
          = (procRun (initProc σ) pre).2.count (ProcEvent.enqSRQ s)
            + (procRun (procRun (initProc σ) pre).1 post).2.count (ProcEvent.enqSRQ s) := by
        rw [hsplitlog, List.count_append]
      constructor
      · rw [hpostF]; omega
      · omega
  · intro st n hmem
    simp only [procStep]
    exact List.mem_map.mpr ⟨s, hmem, rfl⟩

/-- C6 witness: a concrete run — span 0 finishes, fails export from SQ,
fails again from SRQ (dropped), and the remaining actions enqueue it
nowhere. -/
theorem spec_C6_witness :
    (procRun (initProc Nat)
        ([ProcStep.finish 0, ProcStep.exportSQ 1 false, ProcStep.exportSRQ 1 false]
          ++ [ProcStep.exportSQ 1 true])).2.count (ProcEvent.enqSRQ 0)
      ≤ (procRun (initProc Nat)
        ([ProcStep.finish 0, ProcStep.exportSQ 1 false, ProcStep.exportSRQ 1 false]
          ++ [ProcStep.exportSQ 1 true])).2.count (ProcEvent.enqSQ 0) ∧
    (procRun (initProc Nat)
        ([ProcStep.finish 0, ProcStep.exportSQ 1 false, ProcStep.exportSRQ 1 false]
          ++ [ProcStep.exportSQ 1 true])).2.count (ProcEvent.enqSRQ 0) ≤ 1 ∧
    (procRun (procRun (initProc Nat)
        [ProcStep.finish 0, ProcStep.exportSQ 1 false, ProcStep.exportSRQ 1 false]).1
        [ProcStep.exportSQ 1 true]).2.count (ProcEvent.enqSQ 0) = 0 ∧
    (procRun (procRun (initProc Nat)
        [ProcStep.finish 0, ProcStep.exportSQ 1 false, ProcStep.exportSRQ 1 false]).1
        [ProcStep.exportSQ 1 true]).2.count (ProcEvent.enqSRQ 0) = 0 ∧
    ProcEvent.enqSRQ 0 ∈ (procStep (ProcState.mk [0] []) (ProcStep.exportSQ 1 false)).2 :=
  have h := spec_C6 0
    ([ProcStep.finish 0, ProcStep.exportSQ 1 false, ProcStep.exportSRQ 1 false]
      ++ [ProcStep.exportSQ 1 true])
    [ProcStep.finish 0, ProcStep.exportSQ 1 false, ProcStep.exportSRQ 1 false]
    [ProcStep.exportSQ 1 true] rfl
  ⟨h.1, (h.2.2.2.1 (by decide)).1, ((h.2.2.2.1 (by decide)).2 (by decide)).1,
   ((h.2.2.2.1 (by decide)).2 (by decide)).2, h.2.2.2.2 (ProcState.mk [0] []) 1 (by decide)⟩

theorem hexVal_hexDigitByte (n : Nat) (h : n < 16) :
    hexVal (hexDigitByte n) = some n := by
  interval_cases n <;> decide

theorem hexDigitByte_ne_sep (n : Nat) :
    hexDigitByte n ≠ 44 ∧ hexDigitByte n ≠ 61 := by
  unfold hexDigitByte
  split <;> omega

theorem urlEncode_no_sep (v : ByteStr) :
    ∀ x ∈ urlEncode v, x ≠ 44 ∧ x ≠ 61 := by
  induction v with
  | nil => simp [urlEncode]
  | cons b rest ih =>
    simp only [urlEncode]
    by_cases hb : isUnreservedByte b = true
    · rw [if_pos hb]
      intro x hx
      rcases List.mem_cons.mp hx with hx1 | hx2
      · subst hx1
        constructor
        · rintro rfl; simp [isUnreservedByte] at hb
        · rintro rfl; simp [isUnreservedByte] at hb
      · exact ih x hx2
    · rw [if_neg hb]
      intro x hx
      rcases List.mem_cons.mp hx with hx1 | hx2
      · subst hx1; exact ⟨by decide, by decide⟩
      rcases List.mem_cons.mp hx2 with hx3 | hx4
      · subst hx3; exact hexDigitByte_ne_sep _
      rcases List.mem_cons.mp hx4 with hx5 | hx6
      · subst hx5; exact hexDigitByte_ne_sep _
      · exact ih x hx6

theorem urlDecode_urlEncode (v : ByteStr) (hv : ∀ b ∈ v, b < 256) :
    urlDecode (urlEncode v) = some v := by
  induction v with
  | nil => rfl
  | cons b rest ih =>
    have hb : b < 256 := hv b (List.mem_cons_self b rest)
    have hrest : ∀ x ∈ rest, x < 256 := fun x hx => hv x (List.mem_cons_of_mem b hx)
    by_cases hu : isUnreservedByte b = true
    · simp only [urlEncode, if_pos hu]
      have hb37 : b ≠ 37 := by
        rintro rfl; simp [isUnreservedByte] at hu
      unfold urlDecode
      rw [if_neg (by simp [hb37])]
      rw [ih hrest]
    · simp only [urlEncode, if_neg hu]
      simp only [urlDecode]
      rw [if_pos (by decide)]
      rw [hexVal_hexDigitByte (b / 16) (by omega), hexVal_hexDigitByte (b % 16) (by omega),
        ih hrest]
      show some ((b / 16 * 16 + b % 16) :: rest) = some (b :: rest)
      have hb' : b / 16 * 16 + b % 16 = b := by omega
      rw [hb']

theorem splitOnByte_no_sep (sep : Nat) (xs : ByteStr) (h : sep ∉ xs) :
    splitOnByte sep xs = [xs] := by
  induction xs with
  | nil => rfl
  | cons b rest ih =>
    have hbne : b ≠ sep := fun hc => h (hc ▸ List.mem_cons_self b rest)
    simp only [splitOnByte]
    rw [if_neg (by simp [hbne])]
    rw [ih (fun hm => h (List.mem_cons_of_mem b hm))]

theorem splitOnByte_append (sep : Nat) (xs ys : ByteStr) (h : sep ∉ xs) :
    splitOnByte sep (xs ++ sep :: ys) = xs :: splitOnByte sep ys := by
  induction xs with
  | nil =>
    simp only [List.nil_append, splitOnByte]
    rw [if_pos (by simp)]
  | cons b rest ih =>
    have hbne : b ≠ sep := fun hc => h (hc ▸ List.mem_cons_self b rest)
    simp only [List.cons_append, splitOnByte, List.append_eq]
    rw [if_neg (by simp [hbne])]
    rw [ih (fun hm => h (List.mem_cons_of_mem b hm))]

theorem validHex_no_dash (t : ByteStr) (h : t.all isLowerHexByte = true) : 45 ∉ t := by
  intro hm
  have h2 := List.all_eq_true.mp h 45 hm
  simp [isLowerHexByte] at h2

theorem split_formatTraceparent (t s : ByteStr) (ht : 45 ∉ t) (hs : 45 ∉ s) :
    splitOnByte 45 (formatTraceparent t s) = [[48, 48], t, s, [48, 49]] := by
  have hshape : formatTraceparent t s
      = [48, 48] ++ 45 :: (t ++ 45 :: (s ++ 45 :: [48, 49])) := by
    simp [formatTraceparent]
  rw [hshape,
    splitOnByte_append 45 [48, 48] _ (by decide),
    splitOnByte_append 45 t _ ht,
    splitOnByte_append 45 s _ hs,
    splitOnByte_no_sep 45 [48, 49] (by decide)]

theorem parseTraceparent_format (t s : ByteStr)
    (ht : validTraceID t = true) (hs : validSpanID s = true) :
    parseTraceparent (formatTraceparent t s) = some (t, s) := by
  have ht45 : 45 ∉ t :=
    validHex_no_dash t (Bool.and_eq_true_iff.mp ht).2
  have hs45 : 45 ∉ s :=
    validHex_no_dash s (Bool.and_eq_true_iff.mp hs).2
  unfold parseTraceparent
  rw [split_formatTraceparent t s ht45 hs45]
  simp [ht, hs]
  decide

theorem entry_no_44 (k v : ByteStr) : 44 ∉ urlEncode k ++ 61 :: urlEncode v := by
  intro hm
  rcases List.mem_append.mp hm with h1 | h2
  · exact (urlEncode_no_sep k 44 h1).1 rfl
  · rcases List.mem_cons.mp h2 with h3 | h4
    · exact absurd h3 (by decide)
    · exact (urlEncode_no_sep v 44 h4).1 rfl

theorem splitOn61_entry (k v : ByteStr) :
    splitOnByte 61 (urlEncode k ++ 61 :: urlEncode v)
      = [urlEncode k, urlEncode v] := by
  rw [splitOnByte_append 61 _ _ (fun hm => (urlEncode_no_sep k 61 hm).2 rfl),
    splitOnByte_no_sep 61 _ (fun hm => (urlEncode_no_sep v 61 hm).2 rfl)]

theorem parseEntry_format (k v : ByteStr)
    (hk : ∀ b ∈ k, b < 256) (hv : ∀ b ∈ v, b < 256) :
    parseEntry (urlEncode k ++ 61 :: urlEncode v) = some (k, v) := by
  unfold parseEntry
  rw [splitOn61_entry k v]
  simp [urlDecode_urlEncode k hk, urlDecode_urlEncode v hv]

theorem split_formatTracestate (bg : List (ByteStr × ByteStr)) (hne : bg ≠ []) :
    splitOnByte 44 (formatTracestate bg)
      = bg.map (fun kv => urlEncode kv.1 ++ 61 :: urlEncode kv.2) := by
  induction bg with
  | nil => exact absurd rfl hne
  | cons kv rest ih =>
    obtain ⟨k, v⟩ := kv
    cases rest with
    | nil =>
      simp only [formatTracestate, List.map_cons, List.map_nil]
      rw [splitOnByte_no_sep 44 _ (entry_no_44 k v)]
    | cons kv2 rest2 =>
      simp only [formatTracestate, List.map_cons]
      have hshape : urlEncode k ++ 61 :: urlEncode v ++ 44 :: formatTracestate (kv2 :: rest2)
          = (urlEncode k ++ 61 :: urlEncode v) ++ 44 :: formatTracestate (kv2 :: rest2) := by
        simp [List.append_assoc]
      rw [hshape, splitOnByte_append 44 _ _ (entry_no_44 k v), ih (by simp)]
      simp

theorem parseEntries_format (bg : List (ByteStr × ByteStr))
    (hbg : ∀ kv ∈ bg, (∀ b ∈ kv.1, b < 256) ∧ (∀ b ∈ kv.2, b < 256)) :
    parseEntries (bg.map (fun kv => urlEncode kv.1 ++ 61 :: urlEncode kv.2))
      = some bg := by
  induction bg with
  | nil => rfl
  | cons kv rest ih =>
    obtain ⟨k, v⟩ := kv
    simp only [List.map_cons, parseEntries]
    have hk := (hbg (k, v) (List.mem_cons_self _ _)).1
    have hv := (hbg (k, v) (List.mem_cons_self _ _)).2
    rw [parseEntry_format k v hk hv,
      ih (fun kv2 hm => hbg kv2 (List.mem_cons_of_mem _ hm))]

theorem formatTracestate_ne_nil (kv : ByteStr × ByteStr)
    (rest : List (ByteStr × ByteStr)) :
    formatTracestate (kv :: rest) ≠ [] := by
  obtain ⟨k, v⟩ := kv
  cases rest with
  | nil =>
    simp only [formatTracestate]
    intro hc
    exact List.cons_ne_nil 61 (urlEncode v) (List.append_eq_nil.mp hc).2
  | cons kv2 rest2 =>
    simp only [formatTracestate]
    intro hc
    exact List.cons_ne_nil 44 _ (List.append_eq_nil.mp hc).2

theorem parseTracestate_format (bg : List (ByteStr × ByteStr))
    (hbg : ∀ kv ∈ bg, (∀ b ∈ kv.1, b < 256) ∧ (∀ b ∈ kv.2, b < 256)) :
    parseTracestate (formatTracestate bg) = bg := by
  cases bg with
  | nil => rfl
  | cons kv rest =>
    unfold parseTracestate
    rw [if_neg (formatTracestate_ne_nil kv rest)]
    rw [split_formatTracestate (kv :: rest) (by simp), parseEntries_format _ hbg]

theorem parseHeaders_malformed (tp ts : ByteStr)
    (h : wellFormedTraceparent tp = false) :
    parseHeaders tp ts = Except.error HeaderError.headerParent := by
  have hnone : parseTraceparent tp = none := by
    unfold wellFormedTraceparent at h
    unfold parseTraceparent
    split
    next v t s f heq =>
      rw [heq] at h
      have h2 : (v == [48, 48] && validTraceID t && validSpanID s &&
          (f.length == 2 && f.all isLowerHexByte)) = false := h
      rw [if_neg (by rw [h2]; simp)]
    next heq => rfl
  unfold parseHeaders
  rw [hnone]

/-- C5: round trip of the wire carrier codec — for every trace id of 32
lowercase hex bytes, span id of 16 lowercase hex bytes and baggage map
of byte strings, parsing the two headers produced by formatting recovers
exactly the original triple; and parsing any malformed traceparent (the
well-formedness predicate fails) yields the HeaderParent error and no
span context, with the parser a total function (no panic). -/
theorem spec_C5 (t s : ByteStr) (bg : List (ByteStr × ByteStr))
    (ht : validTraceID t = true) (hs : validSpanID s = true)
    (hbg : ∀ kv ∈ bg, (∀ b ∈ kv.1, b < 256) ∧ (∀ b ∈ kv.2, b < 256)) :
    parseHeaders (formatTraceparent t s) (formatTracestate bg)
        = Except.ok ⟨t, s, bg⟩ ∧
    ∀ tp ts, wellFormedTraceparent tp = false →
      parseHeaders tp ts = Except.error HeaderError.headerParent := by
  constructor
  · unfold parseHeaders
    rw [parseTraceparent_format t s ht hs, parseTracestate_format bg hbg]
  · exact parseHeaders_malformed

/-- C5 witness: a concrete round trip — trace id `a`×32, span id
`b`×16, baggage `{k ↦ "v "}` (the space byte 32 exercises the percent
escaping) — and a concrete malformed traceparent `"0"`. -/
theorem spec_C5_witness :
    parseHeaders (formatTraceparent (List.replicate 32 97) (List.replicate 16 98))
        (formatTracestate [([107], [118, 32])])
      = Except.ok ⟨List.replicate 32 97, List.replicate 16 98, [([107], [118, 32])]⟩ ∧
    parseHeaders [48] [] = Except.error HeaderError.headerParent :=
  have h := spec_C5 (List.replicate 32 97) (List.replicate 16 98) [([107], [118, 32])]
    (by decide) (by decide) (by decide)
  ⟨h.1, h.2 [48] [] (by decide)⟩
